import Mathlib

/-
Verification of the volume-ensemble PCA pipeline of scipion-em-cryomethods.

Shallow embedding of the numerical core of
  src/cryomethods/protocols/protocol_control_pca.py   (ProtLandscapePCA.analyzePCAStep,
    _getAverageVol, _getvhDel, _geteigen)
  src/cryomethods/protocols/protocol_directional_ransac.py (pcaStep)

Modelling conventions:
  * A volume is modelled by its flattened sample list (`Vec := List ℚ`); the
    source immediately reshapes every loaded D×D×D array to a flat vector of
    length D³, and every operation studied here acts elementwise or via dot
    products on those flat vectors.  Exact rational arithmetic stands in for
    IEEE floating point.
  * `np.linalg.svd` is an opaque external routine; the matrices `vh` and the
    singular-value list `s` it returns are taken as parameters downstream,
    exactly as the source consumes them.
  * `np.corrcoef(x, y).item(1)` is the Pearson coefficient of x and y; NumPy
    re-centers each vector by its own mean and returns NaN when a variance is
    zero.  NaN is modelled by `none : Option ℝ`.
  * Directory creation (`os.makedirs`) raises when the directory exists
    (Python 2, no exist_ok); this is modelled by an `Except` over an explicit
    list of already-existing directories.
-/

namespace CryoPCA

/-- A flattened volume: the D³ samples of a dense map, in exact arithmetic. -/
abbrev Vec := List ℚ

/-- Elementwise zero vector, `np.zeros(lenght)` of the source. -/
def zeros (L : ℕ) : Vec := List.replicate L 0

/-- Elementwise sum, `a + b` on NumPy arrays. -/
def addVec (x y : Vec) : Vec := List.zipWith (fun a b => a + b) x y

/-- Elementwise difference, `a - b` on NumPy arrays. -/
def subVec (x y : Vec) : Vec := List.zipWith (fun a b => a - b) x y

/-- Scalar multiple, `arr * b` for a NumPy array and a scalar. -/
def smulVec (c : ℚ) (x : Vec) : Vec := x.map (fun a => a * c)

/-- Dot product of two flat vectors, `np.dot(x, y)` for 1-D arrays. -/
def dot (x y : Vec) : ℚ := (List.zipWith (fun a b => a * b) x y).sum

/-- Running sum of `_getAverageVol`: `npAvgVol = np.zeros(...)` then
`npAvgVol += npVol` over the volume list. -/
def sumVecs (L : ℕ) (vols : List Vec) : Vec := vols.foldl addVec (zeros L)

/-- The average map of `_getAverageVol`:
`npAvgVol = np.divide(npAvgVol, len(listVol))`. -/
def averageVol (L : ℕ) (vols : List Vec) : Vec :=
  (sumVecs L vols).map (fun a => a / (vols.length : ℚ))

/-- The centered vectors used by `analyzePCAStep`:
`b = volList - npAvgVol.reshape(lenght)` for each input volume. -/
def centeredVols (L : ℕ) (vols : List Vec) : List Vec :=
  vols.map (fun v => subVec v (averageVol L vols))

/-- Sample mean of a flat vector (NumPy re-centers inside `corrcoef`). -/
def mean (x : Vec) : ℚ := x.sum / (x.length : ℚ)

/-- Deviations from the sample mean, as computed inside `np.corrcoef`. -/
def devs (x : Vec) : Vec := x.map (fun a => a - mean x)

/-- Unnormalised covariance sum `Σ (xᵢ - x̄)(yᵢ - ȳ)`; the degrees-of-freedom
divisor cancels in the correlation coefficient and is omitted. -/
def sxy (x y : Vec) : ℚ := dot (devs x) (devs y)

/-- The value `np.corrcoef(x, y).item(1)`: the Pearson coefficient
`sxy / sqrt(sxx * syy)`, and NaN (modelled `none`) when either variance
vanishes, which is what NumPy produces for a zero-variance row. -/
noncomputable def corrcoef01 (x y : Vec) : Option ℝ :=
  if sxy x x * sxy y y = 0 then none
  else some ((sxy x y : ℝ) / Real.sqrt ((sxy x x : ℝ) * (sxy y y : ℝ)))

/-- The `cov_matrix` double loop of `analyzePCAStep` (and identically of
`pcaStep`): the outer loop centers volume i as `b`, the inner loop centers
volume j and appends `np.corrcoef(volList_two, b).item(1)`. -/
noncomputable def covMatrix (L : ℕ) (vols : List Vec) : List (List (Option ℝ)) :=
  (centeredVols L vols).map
    (fun b => (centeredVols L vols).map (fun cj => corrcoef01 cj b))

/-- Entry (i, j) of a row-major matrix of optional reals. -/
def entryAt (M : List (List (Option ℝ))) (i j : ℕ) : Option ℝ :=
  (M.getD i []).getD j none

/-- The truncation loop of `_getvhDel` (and of `pcaStep`):
`for i in s: if cuttOffMatrix > 0: cuttOffMatrix -= i; sCut += 1 else: break`. -/
def truncLoop : List ℚ → ℚ → ℕ
  | [], _ => 0
  | i :: rest, c => if 0 < c then truncLoop rest (c - i) + 1 else 0

/-- Rank selected in threshold mode by `_getvhDel`: when `thr < 1` run the
truncation loop on `cuttOffMatrix = sum(s) * thr`; otherwise the source keeps
the whole of `vh` (all `N` rows). -/
def selectRankThr (s : List ℚ) (thr : ℚ) : ℕ :=
  if thr < 1 then truncLoop s (s.sum * thr) else s.length

/-- Rows of `vh` kept in threshold mode:
`np.delete(vh, np.s_[sCut:vh.shape[1]], axis=0)` keeps the first `sCut` rows
(`vhDel` is their transpose, and the basis loop iterates `vhDel.T`, i.e.
these rows). -/
def vhRowsThr (vh : List (List ℚ)) (s : List ℚ) (thr : ℚ) : List (List ℚ) :=
  vh.take (selectRankThr s thr)

/-- Rows of `vh` kept in fixed-count mode: `sCut = int(self.pcaCount.get())`
followed by the same `np.delete` call, i.e. the first `sCut` rows (NumPy
deletes the possibly-empty slice `sCut:` and raises no error when
`sCut ≥ N`). -/
def vhRowsCount (vh : List (List ℚ)) (n : ℕ) : List (List ℚ) :=
  vh.take n

/-- Prefix sums of the singular-value list, for stating what the truncation
loop computes. -/
def prefixSum (s : List ℚ) (k : ℕ) : ℚ := (s.take k).sum

-- Basic elementwise-arithmetic lemmas ---------------------------------------

lemma addVec_assoc (a b c : Vec) : addVec (addVec a b) c = addVec a (addVec b c) := by
  induction a generalizing b c with
  | nil => simp [addVec]
  | cons x xs ih =>
      cases b with
      | nil => simp [addVec]
      | cons y ys =>
          cases c with
          | nil => simp [addVec]
          | cons z zs =>
              simp only [addVec, List.zipWith_cons_cons] at *
              exact congrArg₂ _ (add_assoc x y z) (ih ys zs)

lemma addVec_comm (a b : Vec) : addVec a b = addVec b a := by
  induction a generalizing b with
  | nil => cases b <;> simp [addVec]
  | cons x xs ih =>
      cases b with
      | nil => simp [addVec]
      | cons y ys =>
          simp only [addVec, List.zipWith_cons_cons]
          exact congrArg₂ _ (add_comm x y) (ih ys)

lemma addVec_zeros_left (x : Vec) (L : ℕ) (h : x.length ≤ L) :
    addVec (zeros L) x = x := by
  induction x generalizing L with
  | nil => simp [addVec]
  | cons a as ih =>
      cases L with
      | zero => simp at h
      | succ n =>
          simp only [zeros, List.replicate, addVec, List.zipWith_cons_cons, zero_add]
          exact congrArg _ (ih n (by simpa using h))

lemma addVec_zeros_right (x : Vec) (L : ℕ) (h : x.length ≤ L) :
    addVec x (zeros L) = x := by
  rw [addVec_comm]; exact addVec_zeros_left x L h

lemma length_addVec (x y : Vec) : (addVec x y).length = min x.length y.length :=
  List.length_zipWith _ _ _

lemma length_smulVec (c : ℚ) (x : Vec) : (smulVec c x).length = x.length :=
  List.length_map _ _

-- Truncation-loop characterisation ------------------------------------------

lemma truncLoop_le_length (s : List ℚ) (c : ℚ) : truncLoop s c ≤ s.length := by
  induction s generalizing c with
  | nil => simp [truncLoop]
  | cons i rest ih =>
      by_cases h : 0 < c
      · simp only [truncLoop, if_pos h, List.length_cons]
        exact Nat.succ_le_succ (ih (c - i))
      · simp [truncLoop, if_neg h]

lemma truncLoop_prefix_lt (s : List ℚ) (c : ℚ) :
    ∀ j, j < truncLoop s c → prefixSum s j < c := by
  induction s generalizing c with
  | nil => intro j hj; simp [truncLoop] at hj
  | cons i rest ih =>
      intro j hj
      by_cases h : 0 < c
      · simp only [truncLoop, if_pos h] at hj
        cases j with
        | zero => simpa [prefixSum] using h
        | succ n =>
            have hn : n < truncLoop rest (c - i) := by omega
            have := ih (c - i) n hn
            simp only [prefixSum, List.take_succ_cons, List.sum_cons] at *
            linarith
      · simp [truncLoop, if_neg h] at hj

lemma truncLoop_crossed (s : List ℚ) (c : ℚ) :
    truncLoop s c = s.length ∨ c ≤ prefixSum s (truncLoop s c) := by
  induction s generalizing c with
  | nil => left; rfl
  | cons i rest ih =>
      by_cases h : 0 < c
      · rcases ih (c - i) with h1 | h2
        · left; simp [truncLoop, if_pos h, h1]
        · right
          simp only [truncLoop, if_pos h, prefixSum, List.take_succ_cons,
            List.sum_cons]
          have : c - i ≤ prefixSum rest (truncLoop rest (c - i)) := h2
          simp only [prefixSum] at this
          linarith
      · right
        simp only [truncLoop, if_neg h, prefixSum, List.take_zero, List.sum_nil]
        linarith [not_lt.mp h]

lemma truncLoop_pos (i : ℚ) (rest : List ℚ) (c : ℚ) (h : 0 < c) :
    1 ≤ truncLoop (i :: rest) c := by
  simp [truncLoop, if_pos h]

-- Claim C1 --------------------------------------------------------------------

/-- Claim C1 (amended): in variance-fraction mode the truncation loop of
`_getvhDel` consumes singular values while the remaining cut-off stays
strictly positive, so the selected rank is the least `k` with
`prefixSum s k ≥ thr ⬝ sum s` (capped at the list length), crossing
inclusively rather than strictly; in particular for singular values
`[5, 3, 1, 1]` and threshold `0.8` the selected rank is `2`, not `3`. -/
theorem C1_truncation_amended :
    (∀ (s : List ℚ) (c : ℚ),
        truncLoop s c ≤ s.length ∧
        (∀ j, j < truncLoop s c → prefixSum s j < c) ∧
        (truncLoop s c = s.length ∨ c ≤ prefixSum s (truncLoop s c))) ∧
    selectRankThr [5, 3, 1, 1] (4 / 5) = 2 := by
  refine ⟨fun s c =>
    ⟨truncLoop_le_length s c, truncLoop_prefix_lt s c, truncLoop_crossed s c⟩,
    by norm_num [selectRankThr, truncLoop, List.sum_cons, List.sum_nil]⟩

/-- Claim C1, witness: the characterisation applied at the concrete input
`s = [5,3,1,1]`, `cuttOffMatrix = 8`: position 1 is consumed because the
first singular value alone (5) is still below the cut-off. -/
theorem C1_truncation_amended_witness :
    prefixSum [5, 3, 1, 1] 1 < 8 :=
  (C1_truncation_amended.1 [5, 3, 1, 1] 8).2.1 1 (by norm_num [truncLoop])

/-- Claim C1, counterexample to the claim as stated: on singular values
`[5, 3, 1, 1]` with threshold `0.8` the source loop selects rank 2 (the
cumulative sum 5+3 = 8 meets the cut-off 0.8×10 = 8 without strictly
exceeding it), not the rank 3 the claim requires. -/
theorem C1_truncation_cex : selectRankThr [5, 3, 1, 1] (4 / 5) ≠ 3 := by
  norm_num [selectRankThr, truncLoop, List.sum_cons, List.sum_nil]

-- Claim C4 --------------------------------------------------------------------

/-- Claim C4 (amended): the source never raises an `InvalidRank` error and
applies no clamping to `[1, N-1]`.  In fixed-count mode the `np.delete` slice
keeps `min(request, N)` rows — a request `≥ N` silently keeps all `N` rows —
and in threshold mode with `0 < thr·(sum s)` and `thr < 1` the selected rank
lies in `[1, N]`, where the upper end `N` is attainable. -/
theorem C4_rank_bounds_amended (vh : List (List ℚ)) (n : ℕ) (s : List ℚ)
    (thr : ℚ) (hthr : thr < 1) (hc : 0 < s.sum * thr) (hs : s ≠ []) :
    (vhRowsCount vh n).length = min n vh.length ∧
    1 ≤ selectRankThr s thr ∧
    selectRankThr s thr ≤ s.length ∧
    (vhRowsThr vh s thr).length = min (selectRankThr s thr) vh.length := by
  refine ⟨List.length_take _ _, ?_, ?_, List.length_take _ _⟩
  · cases s with
    | nil => exact absurd rfl hs
    | cons i rest =>
        simp only [selectRankThr, if_pos hthr]
        exact truncLoop_pos i rest _ (by simpa using hc)
  · simp only [selectRankThr, if_pos hthr]
    exact truncLoop_le_length _ _

/-- Claim C4, witness: the bounds applied at `vh = I₂`, a fixed-count request
of 5 and singular values `[2, 1]` with threshold `1/2`. -/
theorem C4_rank_bounds_amended_witness :
    (1 : ℚ) / 2 < 1 ∧ (0 : ℚ) < [(2 : ℚ), 1].sum * (1 / 2) ∧
    ((vhRowsCount [[1, 0], [0, 1]] 5).length = min 5 2 ∧
      1 ≤ selectRankThr [2, 1] (1 / 2) ∧
      selectRankThr [2, 1] (1 / 2) ≤ 2 ∧
      (vhRowsThr [[1, 0], [0, 1]] [2, 1] (1 / 2)).length =
        min (selectRankThr [2, 1] (1 / 2)) 2) :=
  ⟨by norm_num, by norm_num,
    C4_rank_bounds_amended [[1, 0], [0, 1]] 5 [2, 1] (1 / 2)
      (by norm_num) (by norm_num) (by simp)⟩

/-- Claim C4, counterexample to the claim as stated: with singular values
`[1, 1]` (N = 2) and threshold `0.8` the loop consumes both values, selecting
rank `2 = N`, which violates the claimed invariant `k ≤ N - 1`; and a
fixed-count request of `5 ≥ N` is not rejected — `np.delete` simply keeps all
`N = 2` rows of `vh`. -/
theorem C4_rank_bounds_cex :
    selectRankThr [1, 1] (4 / 5) = 2 ∧
    ¬ selectRankThr [1, 1] (4 / 5) ≤ 2 - 1 ∧
    vhRowsCount [[1, 0], [0, 1]] 5 = [[1, 0], [0, 1]] := by
  refine ⟨?_, ?_, by simp [vhRowsCount]⟩ <;>
    norm_num [selectRankThr, truncLoop, List.sum_cons, List.sum_nil]

-- Eigenvolume basis (Claim C2) ------------------------------------------------

/-- The basis accumulation loop of `analyzePCAStep`:
`base = np.zeros(lenght); for (a, b) in izip(listVol, i): base += volInpR * b`
for one row `i` of `vhDel.T` (a kept row of `vh`).  Note the loop adds the raw
reshaped volumes, not the centered ones. -/
def buildBase (L : ℕ) (vols : List Vec) (r : List ℚ) : Vec :=
  (vols.zip r).foldl (fun base p => addVec base (smulVec p.2 p.1)) (zeros L)

/-- The complete set of saved `volume_base_%02d.mrc` eigenvolumes: one
`buildBase` run per kept row of `vh`. -/
def controlBasis (L : ℕ) (vols : List Vec) (vhRows : List (List ℚ)) : List Vec :=
  vhRows.map (buildBase L vols)

/-- Mathematical linear combination `Σ cᵢ • vᵢ` over parallel lists, used to
state what the source loops compute. -/
def linComb (L : ℕ) : List Vec → List ℚ → Vec
  | [], _ => zeros L
  | _ :: _, [] => zeros L
  | v :: vs, c :: cs => addVec (smulVec c v) (linComb L vs cs)

/-- Definition following the wording of claim C2: the c-th eigenvolume as the
linear combination of the mean-centered volumes `volumeᵢ − average` weighted
by the right-singular-vector entries. -/
def specBasisVec (L : ℕ) (vols : List Vec) (r : List ℚ) : Vec :=
  linComb L (vols.map (fun v => subVec v (averageVol L vols))) r

lemma linComb_length (L : ℕ) (vols : List Vec) (r : List ℚ)
    (hv : ∀ v ∈ vols, v.length = L) : (linComb L vols r).length = L := by
  induction vols generalizing r with
  | nil => simp [linComb, zeros]
  | cons v vs ih =>
      cases r with
      | nil => simp [linComb, zeros]
      | cons c cs =>
          have hvlen : v.length = L := hv v (by simp)
          have := ih cs (fun w hw => hv w (by simp [hw]))
          simp [linComb, length_addVec, length_smulVec, hvlen, this]

lemma foldl_addVec_linComb (L : ℕ) (vols : List Vec) (r : List ℚ) (acc : Vec)
    (hv : ∀ v ∈ vols, v.length = L) (hacc : acc.length = L) :
    (vols.zip r).foldl (fun base p => addVec base (smulVec p.2 p.1)) acc =
      addVec acc (linComb L vols r) := by
  induction vols generalizing r acc with
  | nil =>
      simp only [List.zip_nil_left, List.foldl_nil, linComb]
      exact (addVec_zeros_right acc L (le_of_eq hacc)).symm
  | cons v vs ih =>
      cases r with
      | nil =>
          simp only [List.zip_nil_right, List.foldl_nil, linComb]
          exact (addVec_zeros_right acc L (le_of_eq hacc)).symm
      | cons c cs =>
          have hvlen : v.length = L := hv v (by simp)
          have hacc2 : (addVec acc (smulVec c v)).length = L := by
            simp [length_addVec, length_smulVec, hacc, hvlen]
          calc ((v :: vs).zip (c :: cs)).foldl
                (fun base p => addVec base (smulVec p.2 p.1)) acc
              = (vs.zip cs).foldl (fun base p => addVec base (smulVec p.2 p.1))
                  (addVec acc (smulVec c v)) := by simp
            _ = addVec (addVec acc (smulVec c v)) (linComb L vs cs) :=
                  ih cs _ (fun w hw => hv w (by simp [hw])) hacc2
            _ = addVec acc (linComb L (v :: vs) (c :: cs)) := by
                  rw [addVec_assoc]; rfl

lemma buildBase_eq_linComb (L : ℕ) (vols : List Vec) (r : List ℚ)
    (hv : ∀ v ∈ vols, v.length = L) :
    buildBase L vols r = linComb L vols r := by
  rw [buildBase, foldl_addVec_linComb L vols r (zeros L) hv (by simp [zeros])]
  exact addVec_zeros_left _ _ (le_of_eq (linComb_length L vols r hv))

-- Claim C2 --------------------------------------------------------------------

/-- Claim C2 (amended): each saved eigenvolume is the linear combination
`Σᵢ V[i,c] ⬝ volumeᵢ` of the RAW input volumes — the basis loop of
`analyzePCAStep` does not subtract the average volume from the inputs it
accumulates. -/
theorem C2_basis_amended (L : ℕ) (vols : List Vec) (vhRows : List (List ℚ))
    (hv : ∀ v ∈ vols, v.length = L) :
    controlBasis L vols vhRows = vhRows.map (fun r => linComb L vols r) := by
  unfold controlBasis
  exact List.map_congr_left (fun r _ => buildBase_eq_linComb L vols r hv)

/-- Claim C2, witness: the amended description applied to the two
one-sample volumes `[1]` and `[3]` with weight row `[1, 0]`. -/
theorem C2_basis_amended_witness :
    (∀ v ∈ [[(1 : ℚ)], [3]], v.length = 1) ∧
    controlBasis 1 [[(1 : ℚ)], [3]] [[1, 0]] =
      [[1, 0]].map (fun r => linComb 1 [[(1 : ℚ)], [3]] r) :=
  ⟨by simp, C2_basis_amended 1 [[(1 : ℚ)], [3]] [[1, 0]] (by simp)⟩

/-- Claim C2, counterexample to the claim as stated: for volumes `[1]` and
`[3]` (average `[2]`) and weight row `[1, 0]` the source builds the
eigenvolume `1⬝[1] + 0⬝[3] = [1]`, whereas the claimed centered combination
is `1⬝([1]−[2]) + 0⬝([3]−[2]) = [−1]`. -/
theorem C2_basis_cex :
    controlBasis 1 [[(1 : ℚ)], [3]] [[1, 0]] ≠
      [specBasisVec 1 [[(1 : ℚ)], [3]] [1, 0]] := by
  norm_num [controlBasis, buildBase, specBasisVec, linComb, averageVol,
    sumVecs, zeros, addVec, subVec, smulVec]

-- Projection (Claim C5) --------------------------------------------------------

/-- The `.mrc` files present in the protocol's extra directory when
`analyzePCAStep` reaches its projection loop: `map_average.mrc` (written there
by `_getAverageVol`) together with the `volume_base_%02d.mrc` eigenvolumes.
The source enumerates them with `glob(self._getExtraPath("*.mrc"))`, whose
order is filesystem-dependent; the facts proved below do not depend on the
order, which is fixed here with the average map first. -/
def controlFiles (L : ℕ) (vols : List Vec) (vhRows : List (List ℚ)) : List Vec :=
  averageVol L vols :: controlBasis L vols vhRows

/-- One row of `matProj` in `analyzePCAStep`: the volume is centered
(`volInputTwo = volRow - npAvgVol`) and dotted against every globbed `.mrc`
file (`matrix_two = np.dot(volInputTwo, j_trans)`). -/
def controlProjRow (L : ℕ) (vols : List Vec) (vhRows : List (List ℚ))
    (v : Vec) : List ℚ :=
  (controlFiles L vols vhRows).map (fun f => dot (subVec v (averageVol L vols)) f)

/-- The full `matProj` of `analyzePCAStep`: one projection row per input
volume. -/
def controlMatProj (L : ℕ) (vols : List Vec) (vhRows : List (List ℚ)) :
    List (List ℚ) :=
  vols.map (controlProjRow L vols vhRows)

/-- Claim C5 (code bug): a projection row always has one entry more than the
number of selected basis rows, because the glob over `*.mrc` also matches
`map_average.mrc`; in particular, with two volumes and one selected component
(`k = 1`) the coordinate vector has length 2, not the claimed k = 1. -/
theorem C5_projection_length_bug :
    (∀ (L : ℕ) (vols : List Vec) (vhRows : List (List ℚ)) (v : Vec),
        (controlProjRow L vols vhRows v).length = vhRows.length + 1) ∧
    (controlProjRow 1 [[(1 : ℚ)], [3]] (vhRowsCount [[1, 0], [0, 1]] 1)
        [1]).length = 2 := by
  constructor
  · intro L vols vhRows v
    simp [controlProjRow, controlFiles, controlBasis]
  · simp [controlProjRow, controlFiles, controlBasis, vhRowsCount]

-- Reconstruction and residual (Claim C7) ---------------------------------------

/-- The reconstruction accumulation loop of `analyzePCAStep`:
`vol = np.zeros(...); for a, b in zip(baseMrcFile, i): vol += volNpo * b`. -/
def reconVol (L : ℕ) (files : List Vec) (coords : List ℚ) : Vec :=
  (files.zip coords).foldl (fun acc p => addVec acc (smulVec p.2 p.1)) (zeros L)

/-- The saved `volume_reconstructed_%02d.mrc`: `finalVol = vol + npAvgVol`. -/
def reconstruct (L : ℕ) (files : List Vec) (coords : List ℚ) (avg : Vec) : Vec :=
  addVec (reconVol L files coords) avg

/-- The saved `volDiff_%02d.mrc`: `volDiff = volRec - volInpThree`, the
reconstructed volume minus the original input volume. -/
def volDiff (volRec volInp : Vec) : Vec := subVec volRec volInp

lemma subVec_antisymm (x y : Vec) :
    subVec x y = (subVec y x).map (fun a => -a) := by
  induction x generalizing y with
  | nil => cases y <;> simp [subVec]
  | cons a as ih =>
      cases y with
      | nil => simp [subVec]
      | cons b bs =>
          simp only [subVec, List.zipWith_cons_cons, List.map_cons] at *
          exact congrArg₂ _ (by ring) (ih bs)

/-- Claim C7 (amended): the reconstruction loop computes
`average + Σ_c coordinates[c] ⬝ eigenvolume_c` as claimed, but the residual the
source saves is `reconstructed − original` — the elementwise NEGATION of the
claimed `original − reconstructed`. -/
theorem C7_reconstruction_amended (L : ℕ) (files : List Vec) (coords : List ℚ)
    (avg : Vec) (hf : ∀ f ∈ files, f.length = L) :
    reconstruct L files coords avg = addVec avg (linComb L files coords) ∧
    (∀ volRec volInp : Vec,
        subVec volInp volRec = (volDiff volRec volInp).map (fun a => -a)) := by
  constructor
  · rw [reconstruct, reconVol,
      foldl_addVec_linComb L files coords (zeros L) hf (by simp [zeros]),
      addVec_zeros_left _ _ (le_of_eq (linComb_length L files coords hf))]
    exact addVec_comm _ _
  · intro volRec volInp
    exact subVec_antisymm volInp volRec

/-- Claim C7, witness: the amended statement applied to a single basis file
`[2]` with coordinate `3` and average `[5]`, giving `[5] + 3⬝[2] = [11]`. -/
theorem C7_reconstruction_amended_witness :
    (∀ f ∈ [[(2 : ℚ)]], f.length = 1) ∧
    (reconstruct 1 [[(2 : ℚ)]] [3] [5] =
        addVec [5] (linComb 1 [[(2 : ℚ)]] [3]) ∧
      (∀ volRec volInp : Vec,
          subVec volInp volRec = (volDiff volRec volInp).map (fun a => -a))) :=
  ⟨by simp, C7_reconstruction_amended 1 [[(2 : ℚ)]] [3] [5] (by simp)⟩

/-- Claim C7, counterexample to the claim as stated: for original volume `[1]`
and reconstructed volume `[0]` the source saves `volDiff = [0] − [1] = [−1]`,
not the claimed difference `original − reconstructed = [1]`. -/
theorem C7_residual_cex :
    volDiff [(0 : ℚ)] [1] ≠ subVec [(1 : ℚ)] [0] := by
  norm_num [volDiff, subVec]

-- The directional-RANSAC copy of the pipeline (Claim C9) ----------------------

/-- `mat_one` of `pcaStep` in the directional-RANSAC protocol: the raw Gram
matrix `np.dot(volList, j_trans)` over all volume pairs — the volumes are NOT
centered here. -/
def ransacMatOne (vols : List Vec) : List (List ℚ) :=
  vols.map (fun v => vols.map (fun w => dot v w))

/-- 2-D `np.dot(A, B)`: each row of the product is the linear combination of
the rows of `B` weighted by the corresponding row of `A`. -/
def npMatmul (A B : List (List ℚ)) : List (List ℚ) :=
  A.map (fun row =>
    (B.zip row).foldl (fun acc p => addVec acc (smulVec p.2 p.1))
      (zeros (B.headD []).length))

/-- `vhDel` of `pcaStep`: the transpose of the first `sCut` rows of `vh`. -/
def ransacVhDel (vh : List (List ℚ)) (k : ℕ) : List (List ℚ) :=
  List.transpose (vh.take k)

/-- `matProj = np.dot(mat_one, vhDel)` of `pcaStep`. -/
def ransacMatProj (vols : List Vec) (vh : List (List ℚ)) (k : ℕ) :
    List (List ℚ) :=
  npMatmul (ransacMatOne vols) (ransacVhDel vh k)

/-- Claim C9 (amended): the two copies of the pipeline are NOT equivalent.
Given the same input volumes, the same `vh` and the same selected rank, the
control-PCA protocol centers each volume and projects it against every `.mrc`
file in its extra directory (the average map plus the bases), while the
directional-RANSAC protocol multiplies the raw uncentered Gram matrix by
`vhDel`; the resulting coordinate matrices differ in both shape and values. -/
theorem C9_pipelines_not_equivalent :
    ¬ ∀ (L : ℕ) (vols : List Vec) (vh : List (List ℚ)) (k : ℕ),
        controlMatProj L vols (vh.take k) = ransacMatProj vols vh k := by
  intro h
  have h1 := h 1 [[(1 : ℚ)], [0]] [[1, 0], [0, 1]] 1
  have h2 : controlMatProj 1 [[(1 : ℚ)], [0]] ([[(1 : ℚ), 0], [0, 1]].take 1) =
      [[1 / 4, 1 / 2], [-(1 / 4), -(1 / 2)]] := by
    norm_num [controlMatProj, controlProjRow, controlFiles, controlBasis,
      buildBase, averageVol, sumVecs, zeros, addVec, subVec, smulVec, dot]
  have ht : List.transpose [[(1 : ℚ), 0]] = [[1], [0]] := rfl
  have h3 : ransacMatProj [[(1 : ℚ)], [0]] [[1, 0], [0, 1]] 1 =
      [[1], [0]] := by
    norm_num [ransacMatProj, npMatmul, ransacMatOne, ransacVhDel, ht,
      zeros, addVec, smulVec, dot]
  rw [h2, h3] at h1
  norm_num at h1

/-- Claim C9, counterexample: the concrete instance on volumes `[1]`, `[0]`
with `vh = I₂` and selected rank 1 — control-PCA produces the 2×2 matrix
`[[1/4, 1/2], [−1/4, −1/2]]` (centered volumes against average-plus-basis)
while directional-RANSAC produces the 2×1 matrix `[[1], [0]]`. -/
theorem C9_pipelines_cex :
    controlMatProj 1 [[(1 : ℚ)], [0]] (vhRowsCount [[1, 0], [0, 1]] 1) ≠
      ransacMatProj [[(1 : ℚ)], [0]] [[1, 0], [0, 1]] 1 := by
  have h2 : controlMatProj 1 [[(1 : ℚ)], [0]] (vhRowsCount [[1, 0], [0, 1]] 1) =
      [[1 / 4, 1 / 2], [-(1 / 4), -(1 / 2)]] := by
    norm_num [controlMatProj, controlProjRow, controlFiles, controlBasis,
      vhRowsCount, buildBase, averageVol, sumVecs, zeros, addVec, subVec,
      smulVec, dot]
  have ht : List.transpose [[(1 : ℚ), 0]] = [[1], [0]] := rfl
  have h3 : ransacMatProj [[(1 : ℚ)], [0]] [[1, 0], [0, 1]] 1 =
      [[1], [0]] := by
    norm_num [ransacMatProj, npMatmul, ransacMatOne, ransacVhDel, ht,
      zeros, addVec, smulVec, dot]
  rw [h2, h3]
  norm_num

-- Correlation-coefficient lemmas (Claims C3, C6) -------------------------------

lemma getD_map_lt {α β : Type _} (f : α → β) (l : List α) (i : ℕ) (d : α)
    (d2 : β) (h : i < l.length) : (l.map f).getD i d2 = f (l.getD i d) := by
  induction l generalizing i with
  | nil => simp at h
  | cons a as ih =>
      cases i with
      | zero => simp
      | succ n => simpa using ih n (by simpa using h)

lemma getD_mem_of_lt {α : Type _} (l : List α) (i : ℕ) (d : α)
    (h : i < l.length) : l.getD i d ∈ l := by
  induction l generalizing i with
  | nil => simp at h
  | cons a as ih =>
      cases i with
      | zero => simp
      | succ n => simpa using Or.inr (ih n (by simpa using h))

lemma dot_comm (x y : Vec) : dot x y = dot y x := by
  induction x generalizing y with
  | nil => cases y <;> simp [dot]
  | cons a as ih =>
      cases y with
      | nil => simp [dot]
      | cons b bs =>
          simp only [dot, List.zipWith_cons_cons, List.sum_cons]
          rw [mul_comm a b]
          exact congrArg (b * a + ·) (ih bs)

lemma dot_self_nonneg (x : Vec) : 0 ≤ dot x x := by
  induction x with
  | nil => simp [dot]
  | cons a as ih =>
      simp only [dot, List.zipWith_cons_cons, List.sum_cons]
      exact add_nonneg (mul_self_nonneg a) ih

lemma sxy_comm (x y : Vec) : sxy x y = sxy y x := dot_comm (devs x) (devs y)

lemma sxx_nonneg (x : Vec) : 0 ≤ sxy x x := dot_self_nonneg (devs x)

lemma corrcoef01_comm (x y : Vec) : corrcoef01 x y = corrcoef01 y x := by
  by_cases h : sxy x x * sxy y y = 0
  · have h2 : sxy y y * sxy x x = 0 := by rwa [mul_comm]
    rw [corrcoef01, corrcoef01, if_pos h, if_pos h2]
  · have h2 : sxy y y * sxy x x ≠ 0 := by rwa [mul_comm]
    rw [corrcoef01, corrcoef01, if_neg h, if_neg h2, sxy_comm x y,
      mul_comm ((sxy x x : ℝ)) ((sxy y y : ℝ))]

lemma corrcoef01_self (x : Vec) (h : sxy x x ≠ 0) : corrcoef01 x x = some 1 := by
  rw [corrcoef01, if_neg (mul_ne_zero h h)]
  have hc : (0 : ℝ) ≤ (sxy x x : ℝ) := by exact_mod_cast sxx_nonneg x
  rw [Real.sqrt_mul_self hc]
  exact congrArg some (div_self (by exact_mod_cast h))

lemma corrcoef01_eq_none_iff (x y : Vec) :
    corrcoef01 x y = none ↔ (sxy x x = 0 ∨ sxy y y = 0) := by
  by_cases h : sxy x x * sxy y y = 0
  · rw [corrcoef01, if_pos h]
    simpa using mul_eq_zero.mp h
  · rw [corrcoef01, if_neg h]
    constructor
    · intro hsome; exact absurd hsome (by simp)
    · intro hor; exact (h (mul_eq_zero.mpr hor)).elim

lemma entryAt_covMatrix (L : ℕ) (vols : List Vec) (i j : ℕ)
    (hi : i < vols.length) (hj : j < vols.length) :
    entryAt (covMatrix L vols) i j =
      corrcoef01 ((centeredVols L vols).getD j (zeros L))
        ((centeredVols L vols).getD i (zeros L)) := by
  have hlen : (centeredVols L vols).length = vols.length := by simp [centeredVols]
  have hi2 : i < (centeredVols L vols).length := by rwa [hlen]
  have hj2 : j < (centeredVols L vols).length := by rwa [hlen]
  rw [entryAt, covMatrix,
    getD_map_lt (fun b => (centeredVols L vols).map fun cj => corrcoef01 cj b)
      (centeredVols L vols) i (zeros L) [] hi2,
    getD_map_lt _ (centeredVols L vols) j (zeros L) none hj2]

-- Claim C3 --------------------------------------------------------------------

/-- Claim C3 (amended): building the correlation matrix never raises an
error; an entry (i, j) is NaN exactly when centered volume i or centered
volume j has zero variance (`np.corrcoef` re-centers each vector by its own
sample mean before normalising).  A merely constant input volume does not
produce a zero-variance centered vector — only a volume equal to the average
plus a constant does — so a single constant volume among distinct volumes
yields a fully finite matrix. -/
theorem C3_degenerate_amended (L : ℕ) (vols : List Vec) (i j : ℕ)
    (hi : i < vols.length) (hj : j < vols.length) :
    entryAt (covMatrix L vols) i j = none ↔
      (sxy ((centeredVols L vols).getD i (zeros L))
          ((centeredVols L vols).getD i (zeros L)) = 0 ∨
        sxy ((centeredVols L vols).getD j (zeros L))
          ((centeredVols L vols).getD j (zeros L)) = 0) := by
  rw [entryAt_covMatrix L vols i j hi hj, corrcoef01_eq_none_iff]
  exact or_comm

/-- Claim C3, witness: the NaN characterisation applied to the set
`{[1,1], [0,2]}`, whose first volume is constant. -/
theorem C3_degenerate_amended_witness :
    (0 : ℕ) < ([[(1 : ℚ), 1], [0, 2]] : List Vec).length ∧
    (1 : ℕ) < ([[(1 : ℚ), 1], [0, 2]] : List Vec).length ∧
    (entryAt (covMatrix 2 [[(1 : ℚ), 1], [0, 2]]) 0 1 = none ↔
      (sxy ((centeredVols 2 [[(1 : ℚ), 1], [0, 2]]).getD 0 (zeros 2))
          ((centeredVols 2 [[(1 : ℚ), 1], [0, 2]]).getD 0 (zeros 2)) = 0 ∨
        sxy ((centeredVols 2 [[(1 : ℚ), 1], [0, 2]]).getD 1 (zeros 2))
          ((centeredVols 2 [[(1 : ℚ), 1], [0, 2]]).getD 1 (zeros 2)) = 0)) :=
  ⟨by simp, by simp,
    C3_degenerate_amended 2 [[(1 : ℚ), 1], [0, 2]] 0 1 (by simp) (by simp)⟩

/-- Claim C3, counterexample to the claim as stated: the volume set
`{[1,1], [0,2]}` contains the constant volume `[1,1]`, yet the correlation
matrix is built without failure and every entry is finite (`isSome`): the
centered first volume `[1,1] − [1/2,3/2] = [1/2,−1/2]` has nonzero variance,
so no `DegenerateVolume` error is raised and no NaN appears. -/
theorem C3_degenerate_cex :
    (covMatrix 2 [[(1 : ℚ), 1], [0, 2]]).map (fun r => r.map Option.isSome) =
      [[true, true], [true, true]] := by
  have hcv : centeredVols 2 [[(1 : ℚ), 1], [0, 2]] =
      [[1 / 2, -(1 / 2)], [-(1 / 2), 1 / 2]] := by
    norm_num [centeredVols, averageVol, sumVecs, zeros, addVec, subVec,
      List.zipWith_cons_cons, List.zipWith_nil_left, List.zipWith_nil_right,
      List.map_cons, List.map_nil, List.replicate_succ, List.replicate_zero,
      List.sum_cons, List.sum_nil, List.length_cons, List.length_nil]
  rw [covMatrix, hcv]
  norm_num [corrcoef01, sxy, devs, mean, dot, List.map_cons, List.map_nil,
    List.zipWith_cons_cons, List.zipWith_nil_left, List.zipWith_nil_right,
    List.sum_cons, List.sum_nil, List.length_cons, List.length_nil]

-- Claim C6 --------------------------------------------------------------------

/-- Claim C6 (amended): for a VolumeSet of N ≥ 2 volumes in which every
centered volume has nonzero variance, the built matrix is N×N, its (i, j)
entry is the Pearson coefficient of the centered volumes i and j, it is
symmetric, and its diagonal entries equal exactly 1.  (Without the
nonzero-variance proviso the claim fails: identical volumes center to the
zero vector and the diagonal becomes NaN, see the counterexample.) -/
theorem C6_corr_matrix_amended (L : ℕ) (vols : List Vec)
    (_hN : 2 ≤ vols.length)
    (hnd : ∀ c ∈ centeredVols L vols, sxy c c ≠ 0) :
    (covMatrix L vols).length = vols.length ∧
    (∀ row ∈ covMatrix L vols, row.length = vols.length) ∧
    (∀ i j, i < vols.length → j < vols.length →
        entryAt (covMatrix L vols) i j =
          corrcoef01 ((centeredVols L vols).getD i (zeros L))
            ((centeredVols L vols).getD j (zeros L)) ∧
        entryAt (covMatrix L vols) i j = entryAt (covMatrix L vols) j i) ∧
    (∀ i, i < vols.length → entryAt (covMatrix L vols) i i = some 1) := by
  refine ⟨by simp [covMatrix, centeredVols], ?_, ?_, ?_⟩
  · intro row hrow
    rcases List.mem_map.mp hrow with ⟨b, _, hb⟩
    simp [← hb, centeredVols]
  · intro i j hi hj
    constructor
    · rw [entryAt_covMatrix L vols i j hi hj]
      exact corrcoef01_comm _ _
    · rw [entryAt_covMatrix L vols i j hi hj,
        entryAt_covMatrix L vols j i hj hi]
      exact corrcoef01_comm _ _
  · intro i hi
    rw [entryAt_covMatrix L vols i i hi hi]
    refine corrcoef01_self _ (hnd _ ?_)
    exact getD_mem_of_lt _ i (zeros L) (by simpa [centeredVols] using hi)

lemma centeredVols_example :
    centeredVols 2 [[(1 : ℚ), 0], [0, 2]] = [[1 / 2, -1], [-(1 / 2), 1]] := by
  norm_num [centeredVols, averageVol, sumVecs, zeros, addVec, subVec,
    List.zipWith_cons_cons, List.zipWith_nil_left, List.zipWith_nil_right,
    List.map_cons, List.map_nil, List.replicate_succ, List.replicate_zero,
    List.sum_cons, List.sum_nil, List.length_cons, List.length_nil]

lemma nondegen_example :
    ∀ c ∈ centeredVols 2 [[(1 : ℚ), 0], [0, 2]], sxy c c ≠ 0 := by
  intro c hc
  rw [centeredVols_example] at hc
  simp only [List.mem_cons, List.not_mem_nil, or_false] at hc
  rcases hc with h | h <;> subst h <;>
    norm_num [sxy, devs, mean, dot, List.map_cons, List.map_nil,
      List.zipWith_cons_cons, List.zipWith_nil_left, List.zipWith_nil_right,
      List.sum_cons, List.sum_nil, List.length_cons, List.length_nil]

/-- Claim C6, witness: the matrix invariants applied to the concrete
nondegenerate set `{[1,0], [0,2]}`. -/
theorem C6_corr_matrix_amended_witness :
    2 ≤ ([[(1 : ℚ), 0], [0, 2]] : List Vec).length ∧
    (∀ c ∈ centeredVols 2 [[(1 : ℚ), 0], [0, 2]], sxy c c ≠ 0) ∧
    ((covMatrix 2 [[(1 : ℚ), 0], [0, 2]]).length =
        ([[(1 : ℚ), 0], [0, 2]] : List Vec).length ∧
      (∀ row ∈ covMatrix 2 [[(1 : ℚ), 0], [0, 2]],
          row.length = ([[(1 : ℚ), 0], [0, 2]] : List Vec).length) ∧
      (∀ i j, i < ([[(1 : ℚ), 0], [0, 2]] : List Vec).length →
          j < ([[(1 : ℚ), 0], [0, 2]] : List Vec).length →
          entryAt (covMatrix 2 [[(1 : ℚ), 0], [0, 2]]) i j =
            corrcoef01 ((centeredVols 2 [[(1 : ℚ), 0], [0, 2]]).getD i (zeros 2))
              ((centeredVols 2 [[(1 : ℚ), 0], [0, 2]]).getD j (zeros 2)) ∧
          entryAt (covMatrix 2 [[(1 : ℚ), 0], [0, 2]]) i j =
            entryAt (covMatrix 2 [[(1 : ℚ), 0], [0, 2]]) j i) ∧
      (∀ i, i < ([[(1 : ℚ), 0], [0, 2]] : List Vec).length →
          entryAt (covMatrix 2 [[(1 : ℚ), 0], [0, 2]]) i i = some 1)) :=
  ⟨by simp, nondegen_example,
    C6_corr_matrix_amended 2 [[(1 : ℚ), 0], [0, 2]] (by simp) nondegen_example⟩

/-- Claim C6, counterexample to the claim as stated: the VolumeSet of two
identical volumes `{[1,0], [1,0]}` satisfies N ≥ 2 and equal dimensions, yet
its diagonal entry is NaN (`none`), not 1: both centered vectors are zero, so
the Pearson coefficient is undefined. -/
theorem C6_corr_matrix_cex :
    entryAt (covMatrix 2 [[(1 : ℚ), 0], [1, 0]]) 0 0 ≠ some 1 := by
  have hcv : centeredVols 2 [[(1 : ℚ), 0], [1, 0]] = [[0, 0], [0, 0]] := by
    norm_num [centeredVols, averageVol, sumVecs, zeros, addVec, subVec,
      List.zipWith_cons_cons, List.zipWith_nil_left, List.zipWith_nil_right,
      List.map_cons, List.map_nil, List.replicate_succ, List.replicate_zero,
      List.sum_cons, List.sum_nil, List.length_cons, List.length_nil]
  have h : entryAt (covMatrix 2 [[(1 : ℚ), 0], [1, 0]]) 0 0 = none := by
    rw [entryAt, covMatrix, hcv]
    norm_num [corrcoef01, sxy, devs, mean, dot, List.map_cons, List.map_nil,
      List.zipWith_cons_cons, List.zipWith_nil_left, List.zipWith_nil_right,
      List.sum_cons, List.sum_nil, List.length_cons, List.length_nil,
      List.getD_cons_zero]
  rw [h]
  simp

-- Clustering call sites (Claim C8) ---------------------------------------------

/-- The parameters of the scikit-learn `KMeans` constructor as invoked by
`pcaStep`: the cluster count passed as `n_clusters` and the `random_state`
seed (absent from the call, i.e. the library default `None`). -/
structure KMeansSpec where
  nClusters : ℕ
  randomState : Option ℕ
deriving DecidableEq

/-- The clustering back-end invocation selected by `pcaStep`. -/
inductive ClusterCall where
  | kmeans : KMeansSpec → ClusterCall
  | affinity : ℚ → ClusterCall
deriving DecidableEq

/-- `matProj.shape[1]`: the column count of the projection matrix. -/
def numCols (m : List (List ℚ)) : ℕ := (m.headD []).length

/-- The clustering dispatch of `pcaStep`:
`if self.ClusteringMethod.get() == 3: KMeans(n_clusters=matProj.shape[1]).fit(...)`
`elif ... == 4: AffinityPropagation(damping=0.9).fit(...)`;
any other method value invokes nothing. -/
def clusteringStep (method : ℕ) (matProj : List (List ℚ)) : Option ClusterCall :=
  if method = 3 then some (ClusterCall.kmeans ⟨numCols matProj, none⟩)
  else if method = 4 then some (ClusterCall.affinity (9 / 10))
  else none

/-- The seed carried by a clustering invocation, when it is a KMeans call. -/
def callRandomState : Option ClusterCall → Option ℕ
  | some (ClusterCall.kmeans s) => s.randomState
  | _ => none

/-- Claim C8 (amended): the partition-based clustering call of `pcaStep`
passes no seed at all (`random_state` is the library default `None`, so runs
are not reproducible by seeding) and hard-codes the cluster count to the
number of projection columns rather than taking a caller-supplied count. -/
theorem C8_clustering_amended (matProj : List (List ℚ)) :
    callRandomState (clusteringStep 3 matProj) = none ∧
    clusteringStep 3 matProj =
      some (ClusterCall.kmeans ⟨numCols matProj, none⟩) := by
  constructor <;> rfl

/-- Claim C8, counterexample to the claim as stated: at the concrete
projection matrix `[[1,2],[3,4]]` the KMeans invocation carries no seed
(`random_state = None`) and a cluster count of 2 taken from
`matProj.shape[1]`, so no fixed seed is available to make repeated runs
reproducible and the count is not caller-supplied. -/
theorem C8_clustering_cex :
    ¬ (∃ seed : ℕ,
        clusteringStep 3 [[(1 : ℚ), 2], [3, 4]] =
          some (ClusterCall.kmeans ⟨2, some seed⟩)) := by
  intro h
  rcases h with ⟨seed, hs⟩
  have : clusteringStep 3 [[(1 : ℚ), 2], [3, 4]] =
      some (ClusterCall.kmeans ⟨2, none⟩) := rfl
  rw [this] at hs
  simp at hs

-- Output directory creation (Claim C10) ----------------------------------------

/-- `os.makedirs` of Python 2: raises (modelled `Except.error`) when the
directory already exists, otherwise records it. -/
def mkdirStep (st : List String) (d : String) : Except String (List String) :=
  if d ∈ st then Except.error d else Except.ok (st ++ [d])

/-- Run a sequence of `os.makedirs` calls, propagating the first failure. -/
def runMkdirs : List String → List String → Except String (List String)
  | st, [] => Except.ok st
  | st, d :: ds =>
      match mkdirStep st d with
      | Except.error e => Except.error e
      | Except.ok st2 => runMkdirs st2 ds

/-- The subdirectories `analyzePCAStep` creates unconditionally, in call
order: `EigenFile` (inside `_geteigen`, reached from `_getvhDel` in every
cut-off mode), then `original_vols`, `volDiff` and `Coordinates`. -/
def analyzeStepDirs : List String :=
  ["EigenFile", "original_vols", "volDiff", "Coordinates"]

/-- The directory-creation effect of one `analyzePCAStep` invocation,
starting from a given set of already-existing directories. -/
def analyzeStepMkdirs (st : List String) : Except String (List String) :=
  runMkdirs st analyzeStepDirs

/-- Two consecutive invocations of `analyzePCAStep` in the same working
directory: the second starts from the directories left by the first. -/
def analyzeStepSecondRun : Except String (List String) :=
  match analyzeStepMkdirs [] with
  | Except.ok st => analyzeStepMkdirs st
  | Except.error e => Except.error e

/-- Claim C10: a first run in a fresh working directory creates all four
output subdirectories and succeeds, and a second invocation of the analysis
in the same directory fails at its first `os.makedirs` call (`EigenFile`
already exists); no handler in `analyzePCAStep` catches the error. -/
theorem C10_second_run_fails :
    analyzeStepMkdirs [] =
      Except.ok ["EigenFile", "original_vols", "volDiff", "Coordinates"] ∧
    analyzeStepSecondRun = Except.error "EigenFile" := by
  constructor <;> rfl

end CryoPCA
